import Mathlib

/-!
Verification development for the `scanny` character-scanning engine
(`src/scanner.rs`, `src/pos.rs`).

The Rust code keeps a cursor (`Scanny`) and an optional speculative session
(`Matcher`) in `Rc<RefCell<…>>` cells shared by every handle.  Since a single
logical scanner state exists at any time, the faithful shallow embedding is
explicit state passing: every `&self` method that mutates cells becomes a
function `Scanny → …  × Scanny` (or `Scanny → Scanny` for chainable
combinators).  The buffer is a `List Char`; byte offsets are `Nat` computed
from `Char.utf8Size`, exactly as Rust's `Chars` iterator and `len_utf8` do.

Session-aware predicates (Rust `Fn(Self) -> bool` receiving a clone that
shares all cells) become state transformers `Scanny → Bool × Scanny`: the
state they return is the state the combinator continues with, which is the
observable content of the Rust aliasing.

`Scanny::peek` and friends clone the character iterator and never write any
cell, so they are embedded as pure functions `Scanny → Option Char`.

The unbounded loop of `peek_and_consume` can genuinely diverge in Rust (a
predicate returning `true` forever at end of input spins), so its embedding
takes explicit fuel; claims about it use only behaviour visible within the
given fuel.
-/

/-- Total UTF-8 byte length of a character list, matching Rust `str::len`. -/
def utf8Len : List Char → Nat
  | [] => 0
  | c :: cs => c.utf8Size + utf8Len cs

/-- Drop `n` bytes from the front of a character list; `none` when `n` is not
a character boundary or exceeds the length.  Models the boundary check of
Rust `str::get` for the lower end of a range. -/
def dropBytes : List Char → Nat → Option (List Char)
  | s, 0 => some s
  | [], Nat.succ _ => none
  | c :: cs, Nat.succ n =>
    if c.utf8Size ≤ n + 1 then dropBytes cs (n + 1 - c.utf8Size) else none

/-- Take `n` bytes from the front of a character list; `none` when `n` is not
a character boundary or exceeds the length.  Models the boundary check of
Rust `str::get` for the upper end of a range. -/
def takeBytes : List Char → Nat → Option (List Char)
  | _, 0 => some []
  | [], Nat.succ _ => none
  | c :: cs, Nat.succ n =>
    if c.utf8Size ≤ n + 1 then (takeBytes cs (n + 1 - c.utf8Size)).map (c :: ·) else none

/-- Model of Rust `str::get(lo..hi)`: `some` exactly when `lo ≤ hi`, both
ends lie on character boundaries and `hi` is within the string; in that case
it returns the characters of the byte range `[lo, hi)`. -/
def strGet (s : List Char) (lo hi : Nat) : Option (List Char) :=
  if lo ≤ hi then (dropBytes s lo).bind (fun r => takeBytes r (hi - lo)) else none

/-- Model of `pos.rs::WithPos<T>`: a value tagged with a half-open byte range
(Rust `Range<usize>`, here a pair `(lo, hi)`) and an inclusive line range
(Rust `RangeInclusive<usize>`, here a pair `(lo, hi)`). -/
structure WithPos (T : Type) where
  value : T
  byte_pos : Nat × Nat
  line_pos : Nat × Nat
deriving Repr, DecidableEq

/-- Model of `WithPos::new`. -/
def WithPos.new {T : Type} (value : T) : WithPos T :=
  { value := value, byte_pos := (0, 0), line_pos := (0, 0) }

/-- Model of `WithPos::set_byte_pos`. -/
def WithPos.set_byte_pos {T : Type} (w : WithPos T) (p : Nat × Nat) : WithPos T :=
  { w with byte_pos := p }

/-- Model of `WithPos::set_line_pos`. -/
def WithPos.set_line_pos {T : Type} (w : WithPos T) (p : Nat × Nat) : WithPos T :=
  { w with line_pos := p }

/-- Model of `scanner.rs::MatchType<'a>`: the finalize outcome, carrying the
scanned substring.  The Rust variants also carry an `Rc<RefCell<bool>>`
consume-override cell; the two cells created by `finalize` are modelled by
the explicit `ConsumeFlags` state threaded through the classifier. -/
inductive MatchType where
  | All (v : List Char)
  | Few (v : List Char)
deriving Repr, DecidableEq

/-- The two consume-override cells created by `finalize`
(`consume_on_match`, defaulted `true`, carried by `All`; and
`consume_on_not_match`, defaulted `true`, carried by `Few`). -/
structure ConsumeFlags where
  consume_on_match : Bool
  consume_on_not_match : Bool
deriving Repr, DecidableEq

/-- Model of `MatchType::value`. -/
def MatchType.value : MatchType → List Char
  | .All v => v
  | .Few v => v

/-- Model of `MatchType::is_matched`. -/
def MatchType.is_matched : MatchType → Bool
  | .All _ => true
  | .Few _ => false

/-- Model of `MatchType::is_not_matched`. -/
def MatchType.is_not_matched : MatchType → Bool
  | .All _ => false
  | .Few _ => true

/-- Model of `MatchType::consume_on_match(v)`: writes the cell carried by the
`All` variant; on a `Few` value it is a no-op (the `if let Self::All` guard
fails). -/
def MatchType.consume_on_match (m : MatchType) (v : Bool) (st : ConsumeFlags) : ConsumeFlags :=
  match m with
  | .All _ => { st with consume_on_match := v }
  | .Few _ => st

/-- Model of `MatchType::consume_on_not_match(v)`: writes the cell carried by
the `Few` variant; on an `All` value it is a no-op. -/
def MatchType.consume_on_not_match (m : MatchType) (v : Bool) (st : ConsumeFlags) : ConsumeFlags :=
  match m with
  | .All _ => st
  | .Few _ => { st with consume_on_not_match := v }

/-- Model of `scanner.rs::Matcher<'a>`: the speculative session — its own
character position (`chars` iterator as the remaining suffix), byte offset,
line number, and the two success flags. -/
structure Matcher where
  chars : List Char
  byte_pos : Nat
  line : Nat
  is_matched : Bool
  match_next : Bool
deriving Repr, DecidableEq

/-- Model of `scanner.rs::Scanny<'a>`: the whole buffer, the committed cursor
(remaining characters, byte offset, line number) and the optional session. -/
structure Scanny where
  whole : List Char
  chars : List Char
  byte_pos : Nat
  line : Nat
  matcher : Option Matcher
deriving Repr, DecidableEq

/-- Model of `Scanny::new` / `From<&str>`: cursor at byte 0, line 1, no
session. -/
def Scanny.new (value : List Char) : Scanny :=
  { whole := value, chars := value, byte_pos := 0, line := 1, matcher := none }

/-- Model of `Scanny::next_match`: the session's `match_next` flag, `true`
when no session is open. -/
def Scanny.next_match (sc : Scanny) : Bool :=
  match sc.matcher with
  | some m => m.match_next
  | none => true

/-- Model of `Scanny::set_next_match`: writes the open session's `match_next`
flag; no-op when no session is open. -/
def Scanny.set_next_match (sc : Scanny) (v : Bool) : Scanny :=
  match sc.matcher with
  | none => sc
  | some m => { sc with matcher := some ({ m with match_next := v }) }

/-- Model of `Scanny::matcher` (renamed: in the embedding `matcher` is the
field holding the session).  Opens a session snapshotting the cursor when
none is open; returns the scanner unchanged when one already is. -/
def Scanny.matcher_open (sc : Scanny) : Scanny :=
  match sc.matcher with
  | some _ => sc
  | none =>
    { sc with matcher := some ({ chars := sc.chars, byte_pos := sc.byte_pos, line := sc.line, is_matched := false, match_next := true }) }

/-- Model of `Scanny::is_matched`: `false` when no session is open, else the
session's `is_matched` flag. -/
def Scanny.is_matched (sc : Scanny) : Bool :=
  match sc.matcher with
  | none => false
  | some m => m.is_matched

/-- Model of `Scanny::matched`: sets the open session's `is_matched` flag;
no-op when no session is open. -/
def Scanny.matched (sc : Scanny) : Scanny :=
  match sc.matcher with
  | none => sc
  | some m => { sc with matcher := some ({ m with is_matched := true }) }

/-- The character stream every read/advance targets: the session's iterator
when a session is open, the cursor's otherwise.  This is the
`if self.matcher.borrow().is_some() { matcher.chars } else { self.chars }`
dispatch shared by `peek*`, `bump`. -/
def Scanny.activeChars (sc : Scanny) : List Char :=
  match sc.matcher with
  | some m => m.chars
  | none => sc.chars

/-- The byte offset of whichever position (session or cursor) is active. -/
def Scanny.activeBytePos (sc : Scanny) : Nat :=
  match sc.matcher with
  | some m => m.byte_pos
  | none => sc.byte_pos

/-- The line number of whichever position (session or cursor) is active. -/
def Scanny.activeLine (sc : Scanny) : Nat :=
  match sc.matcher with
  | some m => m.line
  | none => sc.line

/-- Model of `Scanny::peek`: next character of the active stream, without
consuming (Rust clones the iterator; no cell is written). -/
def Scanny.peek (sc : Scanny) : Option Char :=
  sc.activeChars.head?

/-- Model of `Scanny::peek_second`. -/
def Scanny.peek_second (sc : Scanny) : Option Char :=
  sc.activeChars[1]?

/-- Model of `Scanny::peek_third`. -/
def Scanny.peek_third (sc : Scanny) : Option Char :=
  sc.activeChars[2]?

/-- Model of `Scanny::peek_nth` (`Iterator::nth(n)` is the element at index
`n`). -/
def Scanny.peek_nth (sc : Scanny) (n : Nat) : Option Char :=
  sc.activeChars[n]?

/-- Model of `Scanny::bump`: consume the next character of the active stream.
A newline advances the active byte offset by 1 and the line by 1; any other
character advances the byte offset by its UTF-8 width; at end of stream the
state is unchanged. -/
def Scanny.bump (sc : Scanny) : Option Char × Scanny :=
  match sc.matcher with
  | some m =>
    match m.chars with
    | [] => (none, sc)
    | ch :: rest =>
      if ch = '\n' then
        (some ch, { sc with matcher := some ({ m with chars := rest, byte_pos := m.byte_pos + 1, line := m.line + 1 }) })
      else
        (some ch, { sc with matcher := some ({ m with chars := rest, byte_pos := m.byte_pos + ch.utf8Size }) })
  | none =>
    match sc.chars with
    | [] => (none, sc)
    | ch :: rest =>
      if ch = '\n' then
        (some ch, { sc with chars := rest, byte_pos := sc.byte_pos + 1, line := sc.line + 1 })
      else
        (some ch, { sc with chars := rest, byte_pos := sc.byte_pos + ch.utf8Size })

/-- Consumed stream after a bump: always the tail of the active stream. -/
theorem Scanny.bump_activeChars (sc : Scanny) :
    (sc.bump).2.activeChars = sc.activeChars.tail := by
  obtain ⟨w, cs, b, l, mo⟩ := sc
  cases mo with
  | none =>
    cases cs with
    | nil => rfl
    | cons ch rest => by_cases h : ch = '\n' <;> simp [Scanny.bump, Scanny.activeChars, h]
  | some m =>
    obtain ⟨mcs, mb, ml, mi, mn⟩ := m
    cases mcs with
    | nil => rfl
    | cons ch rest => by_cases h : ch = '\n' <;> simp [Scanny.bump, Scanny.activeChars, h]

/-- The loop of `Scanny::skeep_while`:
`while self.peek().is_some_and(&f) { self.bump(); }`.
Structural recursion on explicit fuel; every iteration consumes exactly one
character of the active stream, so starting the loop with fuel equal to the
length of the active stream (as `Scanny.skeep_while` does) never exhausts
the fuel before the loop condition fails, and the definition coincides with
the unbounded Rust loop. -/
def Scanny.skeepWhileLoop (f : Char → Bool) : Nat → Scanny → Scanny
  | 0, sc => sc
  | Nat.succ n, sc =>
    match sc.peek with
    | some ch => if f ch then Scanny.skeepWhileLoop f n (sc.bump).2 else sc
    | none => sc

/-- Model of `Scanny::skeep_while`: inert when frozen, else skip while the
predicate holds. -/
def Scanny.skeep_while (sc : Scanny) (f : Char → Bool) : Scanny :=
  if sc.is_matched then sc
  else if !sc.next_match then sc
  else Scanny.skeepWhileLoop f sc.activeChars.length sc

/-- Model of `Scanny::match_char`: required single-character step; on
predicate failure set `match_next := false` without consuming; at end of
input do nothing. -/
def Scanny.match_char (sc : Scanny) (f : Char → Bool) : Scanny :=
  if sc.is_matched then sc
  else if !sc.next_match then sc
  else
    match sc.peek with
    | some ch => if f ch then (sc.bump).2 else sc.set_next_match false
    | none => sc

/-- Model of `Scanny::match_char_optional`: like `match_char` but failure is
silently ignored. -/
def Scanny.match_char_optional (sc : Scanny) (f : Char → Bool) : Scanny :=
  if sc.is_matched then sc
  else if !sc.next_match then sc
  else
    match sc.peek with
    | some ch => if f ch then (sc.bump).2 else sc
    | none => sc

/-- Model of `Scanny::then`: required literal-character step; the wildcard
arm (wrong character or end of input) sets `match_next := false`. -/
def Scanny.«then» (sc : Scanny) (ch : Char) : Scanny :=
  if sc.is_matched then sc
  else if !sc.next_match then sc
  else
    match sc.peek with
    | some c => if c = ch then (sc.bump).2 else sc.set_next_match false
    | none => sc.set_next_match false

/-- Model of `Scanny::then_optional`. -/
def Scanny.then_optional (sc : Scanny) (ch : Char) : Scanny :=
  if sc.is_matched then sc
  else if !sc.next_match then sc
  else
    match sc.peek with
    | some c => if c = ch then (sc.bump).2 else sc
    | none => sc

/-- Model of `Scanny::then_any`: the predicate sees the (possibly absent)
peeked character; on `true` bump, on `false` set `match_next := false`. -/
def Scanny.then_any (sc : Scanny) (f : Option Char → Bool) : Scanny :=
  if sc.is_matched then sc
  else if !sc.next_match then sc
  else if f sc.peek then (sc.bump).2 else sc.set_next_match false

/-- Model of `Scanny::then_any_optional`. -/
def Scanny.then_any_optional (sc : Scanny) (chars : List Char) : Scanny :=
  if sc.is_matched then sc
  else if !sc.next_match then sc
  else
    match sc.peek with
    | some c => if chars.contains c then (sc.bump).2 else sc
    | none => sc

/-- Model of `Scanny::then_peek`: the predicate receives the live scanner
(Rust passes a clone sharing every cell; here the returned state is the
state the chain continues with); on `false` set `match_next := false`. -/
def Scanny.then_peek (sc : Scanny) (f : Scanny → Bool × Scanny) : Scanny :=
  if sc.is_matched then sc
  else if !sc.next_match then sc
  else if (f sc).1 then (f sc).2 else ((f sc).2).set_next_match false

/-- The loop of `Scanny::peek_and_consume`, with explicit fuel: each
iteration runs the session-aware predicate and, on `true`, bumps and
continues.  The Rust loop is unbounded (and can spin forever when the
predicate keeps returning `true` at end of input); exhausted fuel returns
the state reached so far. -/
def Scanny.peekAndConsumeLoop (f : Scanny → Bool × Scanny) : Nat → Scanny → Scanny
  | 0, sc => sc
  | Nat.succ n, sc =>
    if (f sc).1 then Scanny.peekAndConsumeLoop f n (((f sc).2).bump).2 else (f sc).2

/-- Model of `Scanny::peek_and_consume` (fuel-bounded loop, see
`Scanny.peekAndConsumeLoop`). -/
def Scanny.peek_and_consume (sc : Scanny) (fuel : Nat) (f : Scanny → Bool × Scanny) : Scanny :=
  if sc.is_matched then sc
  else if !sc.next_match then sc
  else Scanny.peekAndConsumeLoop f fuel sc

/-- The loop of `Scanny::consume_while`:
`loop { match self.peek() { Some(ch) if f(&ch) => bump, _ => break } }`.
Same fuel discipline as `Scanny.skeepWhileLoop`. -/
def Scanny.consumeWhileLoop (f : Char → Bool) : Nat → Scanny → Scanny
  | 0, sc => sc
  | Nat.succ n, sc =>
    match sc.peek with
    | some ch => if f ch then Scanny.consumeWhileLoop f n (sc.bump).2 else sc
    | none => sc

/-- Model of `Scanny::consume_while`. -/
def Scanny.consume_while (sc : Scanny) (f : Char → Bool) : Scanny :=
  if sc.is_matched then sc
  else if !sc.next_match then sc
  else Scanny.consumeWhileLoop f sc.activeChars.length sc

/-- Model of `Scanny::finalize`.  Mirrors the source order faithfully:
`take()` removes the session first, so the later `self.is_matched()` calls
run against a scanner with no session (and hence return `false`); the byte
and line ranges are read before any commit; the classifier runs on the
constructed `MatchType` with both override cells defaulted `true`; then the
override of the branch that occurred decides between committing the
session's position into the cursor and leaving the cursor untouched.
`whole.get(range).unwrap()` is modelled totally as `(strGet …).getD []`. -/
def Scanny.finalize {T : Type} (sc : Scanny)
    (cls : MatchType → ConsumeFlags → T × ConsumeFlags) : Option (WithPos T) × Scanny :=
  match sc.matcher with
  | none => (none, sc)
  | some m =>
    let sc' : Scanny := { sc with matcher := none }
    let byte_lo := sc'.byte_pos
    let byte_hi := m.byte_pos
    let line_lo := sc'.line
    let line_hi := m.line
    let matched := (strGet sc'.whole byte_lo byte_hi).getD []
    let st0 : ConsumeFlags := { consume_on_match := true, consume_on_not_match := true }
    let r := cls (if sc'.is_matched || m.match_next then MatchType.All matched
                  else MatchType.Few matched) st0
    let sc2 :=
      if sc'.is_matched || m.match_next then
        if r.2.consume_on_match then
          { sc' with chars := m.chars, byte_pos := m.byte_pos, line := m.line }
        else sc'
      else if r.2.consume_on_not_match then
        { sc' with chars := m.chars, byte_pos := m.byte_pos, line := m.line }
      else sc'
    (some (((WithPos.new r.1).set_byte_pos (byte_lo, byte_hi)).set_line_pos (line_lo, line_hi)),
      sc2)

/-- Session view used to compare positions across states: the session's
remaining characters, byte offset and line number (ignoring the two success
flags). -/
def Scanny.matcherView (sc : Scanny) : Option (List Char × Nat × Nat) :=
  sc.matcher.map (fun m => (m.chars, m.byte_pos, m.line))

/-- When a session is open, a bump touches only the session: the cursor's
read position, byte offset and line, the buffer, the presence of the
session, and its `match_next` flag are all unchanged. -/
theorem Scanny.bump_session (sc : Scanny) (h : sc.matcher.isSome = true) :
    (sc.bump).2.chars = sc.chars ∧ (sc.bump).2.byte_pos = sc.byte_pos ∧
    (sc.bump).2.line = sc.line ∧ (sc.bump).2.whole = sc.whole ∧
    (sc.bump).2.matcher.isSome = true ∧ (sc.bump).2.next_match = sc.next_match := by
  obtain ⟨w, cs, b, l, mo⟩ := sc
  cases mo with
  | none => simp at h
  | some m =>
    obtain ⟨mcs, mb, ml, mi, mn⟩ := m
    cases mcs with
    | nil => exact ⟨rfl, rfl, rfl, rfl, rfl, rfl⟩
    | cons ch rest =>
      by_cases hch : ch = '\n' <;> simp [Scanny.bump, Scanny.next_match, hch]

/-- A `match_next = false` flag can only live in an open session. -/
theorem Scanny.next_match_false_isSome (sc : Scanny) (h : sc.next_match = false) :
    sc.matcher.isSome = true := by
  cases hm : sc.matcher with
  | none => simp [Scanny.next_match, hm] at h
  | some m => simp [hm]

/-- `set_next_match` touches only the session's `match_next` flag. -/
theorem Scanny.set_next_match_fields (sc : Scanny) (v : Bool) :
    (sc.set_next_match v).chars = sc.chars ∧ (sc.set_next_match v).byte_pos = sc.byte_pos ∧
    (sc.set_next_match v).line = sc.line ∧ (sc.set_next_match v).whole = sc.whole ∧
    (sc.set_next_match v).matcher.isSome = sc.matcher.isSome ∧
    (sc.set_next_match v).matcherView = sc.matcherView := by
  cases hm : sc.matcher <;>
    simp [Scanny.set_next_match, Scanny.matcherView, hm]

/-- `matched` touches only the session's `is_matched` flag. -/
theorem Scanny.matched_fields (sc : Scanny) :
    sc.matched.chars = sc.chars ∧ sc.matched.byte_pos = sc.byte_pos ∧
    sc.matched.line = sc.line ∧ sc.matched.whole = sc.whole ∧
    sc.matched.matcher.isSome = sc.matcher.isSome ∧
    sc.matched.matcherView = sc.matcherView ∧ sc.matched.next_match = sc.next_match := by
  cases hm : sc.matcher <;>
    simp [Scanny.matched, Scanny.matcherView, Scanny.next_match, hm]

/-- Opening a session while one is open is the identity (idempotent open). -/
theorem Scanny.matcher_open_of_isSome (sc : Scanny) (h : sc.matcher.isSome = true) :
    sc.matcher_open = sc := by
  cases hm : sc.matcher with
  | none => rw [hm] at h; simp at h
  | some m => simp [Scanny.matcher_open, hm]

/-- Any property preserved by `bump` is preserved by the `skeep_while`
loop. -/
theorem Scanny.skeepWhileLoop_pres (P : Scanny → Prop) (hP : ∀ s, P s → P (s.bump).2)
    (f : Char → Bool) : ∀ (n : Nat) (sc : Scanny), P sc → P (Scanny.skeepWhileLoop f n sc) := by
  intro n
  induction n with
  | zero => intro sc h; exact h
  | succ n ih =>
    intro sc h
    simp only [Scanny.skeepWhileLoop]
    split
    · split
      · exact ih _ (hP _ h)
      · exact h
    · exact h

/-- Any property preserved by `bump` is preserved by the `consume_while`
loop. -/
theorem Scanny.consumeWhileLoop_pres (P : Scanny → Prop) (hP : ∀ s, P s → P (s.bump).2)
    (f : Char → Bool) : ∀ (n : Nat) (sc : Scanny), P sc → P (Scanny.consumeWhileLoop f n sc) := by
  intro n
  induction n with
  | zero => intro sc h; exact h
  | succ n ih =>
    intro sc h
    simp only [Scanny.consumeWhileLoop]
    split
    · split
      · exact ih _ (hP _ h)
      · exact h
    · exact h

/-- Any property preserved by `bump` and by the session-aware predicate is
preserved by the `peek_and_consume` loop. -/
theorem Scanny.peekAndConsumeLoop_pres (P : Scanny → Prop) (hPb : ∀ s, P s → P (s.bump).2)
    (f : Scanny → Bool × Scanny) (hPf : ∀ s, P s → P (f s).2) :
    ∀ (n : Nat) (sc : Scanny), P sc → P (Scanny.peekAndConsumeLoop f n sc) := by
  intro n
  induction n with
  | zero => intro sc h; exact h
  | succ n ih =>
    intro sc h
    simp only [Scanny.peekAndConsumeLoop]
    split
    · exact ih _ (hPb _ (hPf _ h))
    · exact hPf _ h

/-! ### Byte-offset and substring lemmas -/

/-- UTF-8 length distributes over concatenation. -/
theorem utf8Len_append (a b : List Char) : utf8Len (a ++ b) = utf8Len a + utf8Len b := by
  induction a with
  | nil => simp [utf8Len]
  | cons c cs ih => simp [utf8Len, ih, Nat.add_assoc]

/-- Dropping a whole leading character's bytes steps over that character. -/
theorem dropBytes_cons (c : Char) (cs : List Char) (n : Nat) :
    dropBytes (c :: cs) (c.utf8Size + n) = dropBytes cs n := by
  have h1 : 1 ≤ c.utf8Size := Char.utf8Size_pos c
  obtain ⟨j, hj⟩ : ∃ j, c.utf8Size + n = j + 1 := ⟨c.utf8Size + n - 1, by omega⟩
  rw [hj]
  simp only [dropBytes]
  rw [if_pos (by omega)]
  congr 1
  omega

/-- Taking a whole leading character's bytes keeps that character. -/
theorem takeBytes_cons (c : Char) (cs : List Char) (n : Nat) :
    takeBytes (c :: cs) (c.utf8Size + n) = (takeBytes cs n).map (c :: ·) := by
  have h1 : 1 ≤ c.utf8Size := Char.utf8Size_pos c
  obtain ⟨j, hj⟩ : ∃ j, c.utf8Size + n = j + 1 := ⟨c.utf8Size + n - 1, by omega⟩
  rw [hj]
  simp only [takeBytes]
  rw [if_pos (by omega)]
  congr 2
  omega

/-- The byte count of any `take` prefix is a valid boundary for `dropBytes`,
and dropping it leaves exactly the corresponding character suffix. -/
theorem dropBytes_take (s : List Char) : ∀ k : Nat,
    dropBytes s (utf8Len (s.take k)) = some (s.drop k) := by
  induction s with
  | nil => intro k; simp [utf8Len, dropBytes]
  | cons c cs ih =>
    intro k
    cases k with
    | zero => simp [utf8Len, dropBytes]
    | succ k =>
      simp only [List.take_succ_cons, List.drop_succ_cons, utf8Len]
      rw [dropBytes_cons]
      exact ih k

/-- Taking the byte count of a known prefix returns exactly that prefix. -/
theorem takeBytes_prefix (a b : List Char) : takeBytes (a ++ b) (utf8Len a) = some a := by
  induction a with
  | nil => simp [utf8Len, takeBytes]
  | cons c cs ih =>
    simp only [List.cons_append, utf8Len]
    rw [takeBytes_cons, ih]
    rfl

/-- Splitting a suffix at a later take: `s.drop k1` starts with the segment
between `k1` and `k2` and continues with `s.drop k2`. -/
theorem drop_eq_segment_append (s : List Char) (k1 k2 : Nat) (h : k1 ≤ k2) :
    s.drop k1 = (s.take k2).drop k1 ++ s.drop k2 := by
  have h1 : (s.take k2).drop k1 = (s.drop k1).take (k2 - k1) := by
    rw [List.drop_take]
  have h2 : s.drop k2 = (s.drop k1).drop (k2 - k1) := by
    rw [List.drop_drop]
    congr 1
    omega
  rw [h1, h2, List.take_append_drop]

/-- A shorter take is a prefix of a longer one. -/
theorem take_append_segment (s : List Char) (k1 k2 : Nat) (h : k1 ≤ k2) :
    s.take k2 = s.take k1 ++ (s.take k2).drop k1 := by
  have h1 : s.take k1 = (s.take k2).take k1 := by
    rw [List.take_take, Nat.min_eq_left h]
  rw [h1, List.take_append_drop]

/-- Substring extraction at boundaries computed from character counts always
succeeds and returns the segment between the two counts: the model of
`whole.get(start_byte..session_byte).unwrap()` is total on reachable
offsets. -/
theorem strGet_take_drop (s : List Char) (k1 k2 : Nat) (h : k1 ≤ k2) :
    strGet s (utf8Len (s.take k1)) (utf8Len (s.take k2)) =
      some ((s.take k2).drop k1) := by
  have hsplit : s.take k2 = s.take k1 ++ (s.take k2).drop k1 := take_append_segment s k1 k2 h
  have hlen : utf8Len (s.take k2) = utf8Len (s.take k1) + utf8Len ((s.take k2).drop k1) := by
    conv_lhs => rw [hsplit]
    exact utf8Len_append _ _
  have hle : utf8Len (s.take k1) ≤ utf8Len (s.take k2) := by omega
  have hsub : utf8Len (s.take k2) - utf8Len (s.take k1) = utf8Len ((s.take k2).drop k1) := by
    omega
  rw [strGet, if_pos hle, dropBytes_take s k1]
  show takeBytes (s.drop k1) (utf8Len (s.take k2) - utf8Len (s.take k1)) =
    some ((s.take k2).drop k1)
  rw [hsub, drop_eq_segment_append s k1 k2 h, takeBytes_prefix]

/-- Peeling one character off a suffix: the character count is in range, the
next suffix is the tail, and the prefix grows by exactly that character. -/
theorem drop_cons_succ (s : List Char) : ∀ (k : Nat) (ch : Char) (rest : List Char),
    s.drop k = ch :: rest →
    k < s.length ∧ s.drop (k + 1) = rest ∧ s.take (k + 1) = s.take k ++ [ch] := by
  induction s with
  | nil => intro k ch rest h; simp at h
  | cons c cs ih =>
    intro k ch rest h
    cases k with
    | zero =>
      simp only [List.drop_zero] at h
      obtain ⟨h1, h2⟩ := List.cons.inj h
      subst h1
      subst h2
      exact ⟨by simp, by simp, by simp⟩
    | succ k =>
      simp only [List.drop_succ_cons] at h
      obtain ⟨h1, h2, h3⟩ := ih k ch rest h
      refine ⟨by simpa using Nat.succ_lt_succ h1, by simpa using h2, ?_⟩
      simp [List.take_succ_cons, h3]

/-- Consuming one character adds exactly its UTF-8 width to the byte count of
the consumed prefix. -/
theorem utf8Len_take_succ (s : List Char) (k : Nat) (ch : Char) (rest : List Char)
    (h : s.drop k = ch :: rest) :
    utf8Len (s.take (k + 1)) = utf8Len (s.take k) + ch.utf8Size := by
  obtain ⟨-, -, h3⟩ := drop_cons_succ s k ch rest h
  rw [h3, utf8Len_append]
  simp [utf8Len]

/-- The reachability invariant backing the safety claim: the cursor stands at
a character boundary of the buffer (its byte offset is the UTF-8 length of
the consumed character prefix, its read position the matching suffix), and
any open session stands at a boundary at or after the cursor's. -/
def Scanny.Inv (sc : Scanny) : Prop :=
  ∃ k1, k1 ≤ sc.whole.length ∧ sc.chars = sc.whole.drop k1 ∧
    sc.byte_pos = utf8Len (sc.whole.take k1) ∧
    ∀ m, sc.matcher = some m →
      ∃ k2, k1 ≤ k2 ∧ k2 ≤ sc.whole.length ∧ m.chars = sc.whole.drop k2 ∧
        m.byte_pos = utf8Len (sc.whole.take k2)

/-- The invariant holds for a fresh scanner. -/
theorem Scanny.Inv_new (s : List Char) : (Scanny.new s).Inv := by
  refine ⟨0, by simp, by simp [Scanny.new], by simp [Scanny.new, utf8Len], ?_⟩
  intro m hm
  simp [Scanny.new] at hm

/-- `bump` preserves the boundary invariant: it advances the active position
by exactly the consumed character's encoded width. -/
theorem Scanny.Inv_bump (sc : Scanny) (h : sc.Inv) : (sc.bump).2.Inv := by
  obtain ⟨k1, hk1, hc, hb, hm⟩ := h
  cases hmo : sc.matcher with
  | none =>
    cases hcs : sc.chars with
    | nil =>
      have hbump : (sc.bump).2 = sc := by simp [Scanny.bump, hmo, hcs]
      rw [hbump]
      exact ⟨k1, hk1, hc, hb, hm⟩
    | cons ch rest =>
      have hdrop : sc.whole.drop k1 = ch :: rest := by rw [← hc, hcs]
      have hstep := drop_cons_succ sc.whole k1 ch rest hdrop
      have hlen := utf8Len_take_succ sc.whole k1 ch rest hdrop
      by_cases hch : ch = '\n'
      · have hsz : ch.utf8Size = 1 := by rw [hch]; decide
        have hbump : (sc.bump).2 =
            { sc with chars := rest, byte_pos := sc.byte_pos + 1, line := sc.line + 1 } := by
          simp [Scanny.bump, hmo, hcs, hch]
        rw [hbump]
        refine ⟨k1 + 1, hstep.1, hstep.2.1.symm, by rw [hlen, hb, hsz], ?_⟩
        intro m' hm'
        simp only [hmo] at hm'
        cases hm'
      · have hbump : (sc.bump).2 =
            { sc with chars := rest, byte_pos := sc.byte_pos + ch.utf8Size } := by
          simp [Scanny.bump, hmo, hcs, hch]
        rw [hbump]
        refine ⟨k1 + 1, hstep.1, hstep.2.1.symm, by rw [hlen, hb], ?_⟩
        intro m' hm'
        simp only [hmo] at hm'
        cases hm'
  | some m =>
    obtain ⟨k2, hk12, hk2, hmc, hmb⟩ := hm m hmo
    cases hmcs : m.chars with
    | nil =>
      have hbump : (sc.bump).2 = sc := by simp [Scanny.bump, hmo, hmcs]
      rw [hbump]
      exact ⟨k1, hk1, hc, hb, hm⟩
    | cons ch rest =>
      have hdrop : sc.whole.drop k2 = ch :: rest := by rw [← hmc, hmcs]
      have hstep := drop_cons_succ sc.whole k2 ch rest hdrop
      have hlen := utf8Len_take_succ sc.whole k2 ch rest hdrop
      by_cases hch : ch = '\n'
      · have hsz : ch.utf8Size = 1 := by rw [hch]; decide
        have hbump : (sc.bump).2 = { sc with matcher := some ({ m with chars := rest, byte_pos := m.byte_pos + 1, line := m.line + 1 }) } := by
          simp [Scanny.bump, hmo, hmcs, hch]
        rw [hbump]
        refine ⟨k1, hk1, hc, hb, ?_⟩
        intro m' hm'
        simp only [Option.some.injEq] at hm'
        subst hm'
        exact ⟨k2 + 1, by omega, hstep.1, hstep.2.1.symm, by simp [hlen, hmb, hsz]⟩
      · have hbump : (sc.bump).2 = { sc with matcher := some ({ m with chars := rest, byte_pos := m.byte_pos + ch.utf8Size }) } := by
          simp [Scanny.bump, hmo, hmcs, hch]
        rw [hbump]
        refine ⟨k1, hk1, hc, hb, ?_⟩
        intro m' hm'
        simp only [Option.some.injEq] at hm'
        subst hm'
        exact ⟨k2 + 1, by omega, hstep.1, hstep.2.1.symm, by simp [hlen, hmb]⟩

/-- `set_next_match` preserves the boundary invariant (positions are
untouched). -/
theorem Scanny.Inv_set_next_match (sc : Scanny) (v : Bool) (h : sc.Inv) :
    (sc.set_next_match v).Inv := by
  obtain ⟨k1, hk1, hc, hb, hm⟩ := h
  cases hmo : sc.matcher with
  | none =>
    have hid : sc.set_next_match v = sc := by simp [Scanny.set_next_match, hmo]
    rw [hid]
    exact ⟨k1, hk1, hc, hb, hm⟩
  | some m =>
    obtain ⟨k2, hk12, hk2, hmc, hmb⟩ := hm m hmo
    have hset : sc.set_next_match v =
        { sc with matcher := some ({ m with match_next := v }) } := by
      simp [Scanny.set_next_match, hmo]
    rw [hset]
    refine ⟨k1, hk1, hc, hb, ?_⟩
    intro m' hm'
    simp only [Option.some.injEq] at hm'
    subst hm'
    exact ⟨k2, hk12, hk2, hmc, hmb⟩

/-- `matched` preserves the boundary invariant (positions are untouched). -/
theorem Scanny.Inv_matched (sc : Scanny) (h : sc.Inv) : sc.matched.Inv := by
  obtain ⟨k1, hk1, hc, hb, hm⟩ := h
  cases hmo : sc.matcher with
  | none =>
    have hid : sc.matched = sc := by simp [Scanny.matched, hmo]
    rw [hid]
    exact ⟨k1, hk1, hc, hb, hm⟩
  | some m =>
    obtain ⟨k2, hk12, hk2, hmc, hmb⟩ := hm m hmo
    have hset : sc.matched = { sc with matcher := some ({ m with is_matched := true }) } := by
      simp [Scanny.matched, hmo]
    rw [hset]
    refine ⟨k1, hk1, hc, hb, ?_⟩
    intro m' hm'
    simp only [Option.some.injEq] at hm'
    subst hm'
    exact ⟨k2, hk12, hk2, hmc, hmb⟩

/-- Opening a session preserves the boundary invariant: the snapshot starts
exactly at the cursor's boundary. -/
theorem Scanny.Inv_matcher_open (sc : Scanny) (h : sc.Inv) : sc.matcher_open.Inv := by
  obtain ⟨k1, hk1, hc, hb, hm⟩ := h
  cases hmo : sc.matcher with
  | some m =>
    have hid : sc.matcher_open = sc := by simp [Scanny.matcher_open, hmo]
    rw [hid]
    exact ⟨k1, hk1, hc, hb, hm⟩
  | none =>
    have hopen : sc.matcher_open = { sc with matcher := some ({ chars := sc.chars, byte_pos := sc.byte_pos, line := sc.line, is_matched := false, match_next := true }) } := by
      simp [Scanny.matcher_open, hmo]
    rw [hopen]
    refine ⟨k1, hk1, hc, hb, ?_⟩
    intro m' hm'
    simp only [Option.some.injEq] at hm'
    subst hm'
    exact ⟨k1, le_refl k1, hk1, hc, hb⟩

/-- `finalize` preserves the boundary invariant: the resulting cursor is
either unchanged or set to the session's boundary. -/
theorem Scanny.Inv_finalize {T : Type} (sc : Scanny)
    (cls : MatchType → ConsumeFlags → T × ConsumeFlags) (h : sc.Inv) :
    (sc.finalize cls).2.Inv := by
  obtain ⟨k1, hk1, hc, hb, hm⟩ := h
  cases hmo : sc.matcher with
  | none =>
    have hid : (sc.finalize cls).2 = sc := by simp [Scanny.finalize, hmo]
    rw [hid]
    exact ⟨k1, hk1, hc, hb, hm⟩
  | some m =>
    obtain ⟨k2, hk12, hk2, hmc, hmb⟩ := hm m hmo
    have hcases : (sc.finalize cls).2 = { sc with matcher := none } ∨
        (sc.finalize cls).2 = { sc with chars := m.chars, byte_pos := m.byte_pos, line := m.line, matcher := none } := by
      simp only [Scanny.finalize, hmo]
      split_ifs <;> simp
    have hnone : ({ sc with matcher := none } : Scanny).Inv := by
      refine ⟨k1, hk1, hc, hb, ?_⟩
      intro m' hm'
      cases hm'
    have hcommit : ({ sc with chars := m.chars, byte_pos := m.byte_pos, line := m.line, matcher := none } : Scanny).Inv := by
      refine ⟨k2, hk2, hmc, hmb, ?_⟩
      intro m' hm'
      cases hm'
    cases hcases with
    | inl he => rw [he]; exact hnone
    | inr he => rw [he]; exact hcommit

/-! ### Per-combinator preservation and freeze lemmas -/

/-- Any property preserved by `bump` and `set_next_match` is preserved by
`match_char`. -/
theorem Scanny.match_char_pres (P : Scanny → Prop) (hb : ∀ s, P s → P (s.bump).2)
    (hs : ∀ s v, P s → P (s.set_next_match v)) (sc : Scanny) (f : Char → Bool) (h : P sc) :
    P (sc.match_char f) := by
  unfold Scanny.match_char
  split
  · exact h
  · split
    · exact h
    · split
      · split
        · exact hb _ h
        · exact hs _ _ h
      · exact h

/-- Any property preserved by `bump` is preserved by `match_char_optional`. -/
theorem Scanny.match_char_optional_pres (P : Scanny → Prop) (hb : ∀ s, P s → P (s.bump).2)
    (sc : Scanny) (f : Char → Bool) (h : P sc) : P (sc.match_char_optional f) := by
  unfold Scanny.match_char_optional
  split
  · exact h
  · split
    · exact h
    · split
      · split
        · exact hb _ h
        · exact h
      · exact h

/-- Any property preserved by `bump` and `set_next_match` is preserved by
`then`. -/
theorem Scanny.then_pres (P : Scanny → Prop) (hb : ∀ s, P s → P (s.bump).2)
    (hs : ∀ s v, P s → P (s.set_next_match v)) (sc : Scanny) (ch : Char) (h : P sc) :
    P (sc.«then» ch) := by
  unfold Scanny.«then»
  split
  · exact h
  · split
    · exact h
    · split
      · split
        · exact hb _ h
        · exact hs _ _ h
      · exact hs _ _ h

/-- Any property preserved by `bump` is preserved by `then_optional`. -/
theorem Scanny.then_optional_pres (P : Scanny → Prop) (hb : ∀ s, P s → P (s.bump).2)
    (sc : Scanny) (ch : Char) (h : P sc) : P (sc.then_optional ch) := by
  unfold Scanny.then_optional
  split
  · exact h
  · split
    · exact h
    · split
      · split
        · exact hb _ h
        · exact h
      · exact h

/-- Any property preserved by `bump` and `set_next_match` is preserved by
`then_any`. -/
theorem Scanny.then_any_pres (P : Scanny → Prop) (hb : ∀ s, P s → P (s.bump).2)
    (hs : ∀ s v, P s → P (s.set_next_match v)) (sc : Scanny) (f : Option Char → Bool)
    (h : P sc) : P (sc.then_any f) := by
  unfold Scanny.then_any
  split
  · exact h
  · split
    · exact h
    · split
      · exact hb _ h
      · exact hs _ _ h

/-- Any property preserved by `bump` is preserved by `then_any_optional`. -/
theorem Scanny.then_any_optional_pres (P : Scanny → Prop) (hb : ∀ s, P s → P (s.bump).2)
    (sc : Scanny) (cs : List Char) (h : P sc) : P (sc.then_any_optional cs) := by
  unfold Scanny.then_any_optional
  split
  · exact h
  · split
    · exact h
    · split
      · split
        · exact hb _ h
        · exact h
      · exact h

/-- Any property preserved by `bump` is preserved by `skeep_while`. -/
theorem Scanny.skeep_while_pres (P : Scanny → Prop) (hb : ∀ s, P s → P (s.bump).2)
    (sc : Scanny) (f : Char → Bool) (h : P sc) : P (sc.skeep_while f) := by
  unfold Scanny.skeep_while
  split
  · exact h
  · split
    · exact h
    · exact Scanny.skeepWhileLoop_pres P hb f _ _ h

/-- Any property preserved by `bump` is preserved by `consume_while`. -/
theorem Scanny.consume_while_pres (P : Scanny → Prop) (hb : ∀ s, P s → P (s.bump).2)
    (sc : Scanny) (f : Char → Bool) (h : P sc) : P (sc.consume_while f) := by
  unfold Scanny.consume_while
  split
  · exact h
  · split
    · exact h
    · exact Scanny.consumeWhileLoop_pres P hb f _ _ h

/-- Any property preserved by `set_next_match` and by the session-aware
predicate is preserved by `then_peek`. -/
theorem Scanny.then_peek_pres (P : Scanny → Prop)
    (hs : ∀ s v, P s → P (s.set_next_match v)) (f : Scanny → Bool × Scanny)
    (hf : ∀ s, P s → P (f s).2) (sc : Scanny) (h : P sc) : P (sc.then_peek f) := by
  unfold Scanny.then_peek
  split
  · exact h
  · split
    · exact h
    · split
      · exact hf _ h
      · exact hs _ _ (hf _ h)

/-- Any property preserved by `bump` and by the session-aware predicate is
preserved by `peek_and_consume`. -/
theorem Scanny.peek_and_consume_pres (P : Scanny → Prop) (hb : ∀ s, P s → P (s.bump).2)
    (f : Scanny → Bool × Scanny) (hf : ∀ s, P s → P (f s).2) (sc : Scanny) (fuel : Nat)
    (h : P sc) : P (sc.peek_and_consume fuel f) := by
  unfold Scanny.peek_and_consume
  split
  · exact h
  · split
    · exact h
    · exact Scanny.peekAndConsumeLoop_pres P hb f hf _ _ h

/-- A frozen session (`is_matched = true` or `match_next = false`) makes
every combinator the identity: the guards at the top of each combinator
return before any predicate is evaluated or any character consumed. -/
theorem Scanny.frozen_id (sc : Scanny) (h : sc.is_matched = true ∨ sc.next_match = false) :
    (∀ f, sc.skeep_while f = sc) ∧ (∀ f, sc.match_char f = sc) ∧
    (∀ f, sc.match_char_optional f = sc) ∧ (∀ ch, sc.«then» ch = sc) ∧
    (∀ ch, sc.then_optional ch = sc) ∧ (∀ f, sc.then_any f = sc) ∧
    (∀ cs, sc.then_any_optional cs = sc) ∧ (∀ f, sc.then_peek f = sc) ∧
    (∀ fuel f, sc.peek_and_consume fuel f = sc) ∧ (∀ f, sc.consume_while f = sc) := by
  cases h with
  | inl h1 =>
    exact ⟨fun f => by simp [Scanny.skeep_while, h1], fun f => by simp [Scanny.match_char, h1],
      fun f => by simp [Scanny.match_char_optional, h1], fun ch => by simp [Scanny.«then», h1],
      fun ch => by simp [Scanny.then_optional, h1], fun f => by simp [Scanny.then_any, h1],
      fun cs => by simp [Scanny.then_any_optional, h1], fun f => by simp [Scanny.then_peek, h1],
      fun fuel f => by simp [Scanny.peek_and_consume, h1],
      fun f => by simp [Scanny.consume_while, h1]⟩
  | inr h2 =>
    exact ⟨fun f => by simp [Scanny.skeep_while, h2], fun f => by simp [Scanny.match_char, h2],
      fun f => by simp [Scanny.match_char_optional, h2], fun ch => by simp [Scanny.«then», h2],
      fun ch => by simp [Scanny.then_optional, h2], fun f => by simp [Scanny.then_any, h2],
      fun cs => by simp [Scanny.then_any_optional, h2], fun f => by simp [Scanny.then_peek, h2],
      fun fuel f => by simp [Scanny.peek_and_consume, h2],
      fun f => by simp [Scanny.consume_while, h2]⟩

/-! ### Operation relations -/

/-- Discipline obeyed by every session-aware predicate built from the public
API while a session is open: it leaves the cursor's read position, byte
offset and line unchanged and keeps the session open (every public operation
that is not `finalize` does so — see `SessionStep.cursor_pres`). -/
def SessionLocal (f : Scanny → Bool × Scanny) : Prop :=
  ∀ s, s.matcher.isSome = true →
    (f s).2.chars = s.chars ∧ (f s).2.byte_pos = s.byte_pos ∧ (f s).2.line = s.line ∧
    (f s).2.matcher.isSome = true

/-- One public read/advance/combinator call, excluding `finalize`: the
operations a caller can run between opening a session and finalizing it
(`peek`/`peek_second`/`peek_third`/`peek_nth` are pure and have no state
transition).  Session-aware predicates carry the `SessionLocal` discipline
obeyed by any predicate composed from these same operations. -/
inductive SessionStep : Scanny → Scanny → Prop where
  | bump (sc : Scanny) : SessionStep sc (sc.bump).2
  | matcher_open (sc : Scanny) : SessionStep sc sc.matcher_open
  | matched (sc : Scanny) : SessionStep sc sc.matched
  | skeep_while (sc : Scanny) (f : Char → Bool) : SessionStep sc (sc.skeep_while f)
  | match_char (sc : Scanny) (f : Char → Bool) : SessionStep sc (sc.match_char f)
  | match_char_optional (sc : Scanny) (f : Char → Bool) :
      SessionStep sc (sc.match_char_optional f)
  | then_lit (sc : Scanny) (ch : Char) : SessionStep sc (sc.«then» ch)
  | then_optional (sc : Scanny) (ch : Char) : SessionStep sc (sc.then_optional ch)
  | then_any (sc : Scanny) (f : Option Char → Bool) : SessionStep sc (sc.then_any f)
  | then_any_optional (sc : Scanny) (cs : List Char) : SessionStep sc (sc.then_any_optional cs)
  | then_peek (sc : Scanny) (f : Scanny → Bool × Scanny) (hf : SessionLocal f) :
      SessionStep sc (sc.then_peek f)
  | peek_and_consume (sc : Scanny) (fuel : Nat) (f : Scanny → Bool × Scanny)
      (hf : SessionLocal f) : SessionStep sc (sc.peek_and_consume fuel f)
  | consume_while (sc : Scanny) (f : Char → Bool) : SessionStep sc (sc.consume_while f)

/-- While a session is open, every non-finalize operation leaves the cursor's
read position, byte offset and line unchanged and keeps the session open. -/
theorem SessionStep.cursor_pres {b c : Scanny} (st : SessionStep b c)
    (h : b.matcher.isSome = true) :
    c.chars = b.chars ∧ c.byte_pos = b.byte_pos ∧ c.line = b.line ∧
    c.matcher.isSome = true := by
  have hPb : ∀ s : Scanny,
      (s.chars = b.chars ∧ s.byte_pos = b.byte_pos ∧ s.line = b.line ∧
        s.matcher.isSome = true) →
      ((s.bump).2.chars = b.chars ∧ (s.bump).2.byte_pos = b.byte_pos ∧
        (s.bump).2.line = b.line ∧ (s.bump).2.matcher.isSome = true) := by
    intro s hp
    obtain ⟨h1, h2, h3, h4⟩ := hp
    obtain ⟨b1, b2, b3, -, b5, -⟩ := Scanny.bump_session s h4
    exact ⟨b1.trans h1, b2.trans h2, b3.trans h3, b5⟩
  have hPs : ∀ (s : Scanny) (v : Bool),
      (s.chars = b.chars ∧ s.byte_pos = b.byte_pos ∧ s.line = b.line ∧
        s.matcher.isSome = true) →
      ((s.set_next_match v).chars = b.chars ∧ (s.set_next_match v).byte_pos = b.byte_pos ∧
        (s.set_next_match v).line = b.line ∧ (s.set_next_match v).matcher.isSome = true) := by
    intro s v hp
    obtain ⟨h1, h2, h3, h4⟩ := hp
    obtain ⟨s1, s2, s3, -, s5, -⟩ := Scanny.set_next_match_fields s v
    exact ⟨s1.trans h1, s2.trans h2, s3.trans h3, s5.trans h4⟩
  have hstart : b.chars = b.chars ∧ b.byte_pos = b.byte_pos ∧ b.line = b.line ∧
      b.matcher.isSome = true := ⟨rfl, rfl, rfl, h⟩
  cases st with
  | bump => exact hPb _ hstart
  | matcher_open => rw [Scanny.matcher_open_of_isSome _ h]; exact hstart
  | matched =>
    obtain ⟨m1, m2, m3, -, m5, -, -⟩ := Scanny.matched_fields b
    exact ⟨m1.trans hstart.1, m2.trans hstart.2.1, m3.trans hstart.2.2.1,
      m5.trans hstart.2.2.2⟩
  | skeep_while f => exact Scanny.skeep_while_pres _ hPb b f hstart
  | match_char f => exact Scanny.match_char_pres _ hPb hPs b f hstart
  | match_char_optional f => exact Scanny.match_char_optional_pres _ hPb b f hstart
  | then_lit ch => exact Scanny.then_pres _ hPb hPs b ch hstart
  | then_optional ch => exact Scanny.then_optional_pres _ hPb b ch hstart
  | then_any f => exact Scanny.then_any_pres _ hPb hPs b f hstart
  | then_any_optional cs => exact Scanny.then_any_optional_pres _ hPb b cs hstart
  | then_peek f hf =>
    have hPf : ∀ s : Scanny,
        (s.chars = b.chars ∧ s.byte_pos = b.byte_pos ∧ s.line = b.line ∧
          s.matcher.isSome = true) →
        ((f s).2.chars = b.chars ∧ (f s).2.byte_pos = b.byte_pos ∧
          (f s).2.line = b.line ∧ (f s).2.matcher.isSome = true) := by
      intro s hp
      obtain ⟨h1, h2, h3, h4⟩ := hp
      obtain ⟨f1, f2, f3, f4⟩ := hf s h4
      exact ⟨f1.trans h1, f2.trans h2, f3.trans h3, f4⟩
    exact Scanny.then_peek_pres _ hPs f hPf b hstart
  | peek_and_consume fuel f hf =>
    have hPf : ∀ s : Scanny,
        (s.chars = b.chars ∧ s.byte_pos = b.byte_pos ∧ s.line = b.line ∧
          s.matcher.isSome = true) →
        ((f s).2.chars = b.chars ∧ (f s).2.byte_pos = b.byte_pos ∧
          (f s).2.line = b.line ∧ (f s).2.matcher.isSome = true) := by
      intro s hp
      obtain ⟨h1, h2, h3, h4⟩ := hp
      obtain ⟨f1, f2, f3, f4⟩ := hf s h4
      exact ⟨f1.trans h1, f2.trans h2, f3.trans h3, f4⟩
    exact Scanny.peek_and_consume_pres _ hPb f hPf b fuel hstart
  | consume_while f => exact Scanny.consume_while_pres _ hPb b f hstart

/-- Once `match_next` is `false`, no non-finalize operation resets it: every
guarded combinator short-circuits before touching anything, and
`bump`/`matched`/re-open leave the flag alone. -/
theorem SessionStep.next_match_mono {b c : Scanny} (st : SessionStep b c)
    (h : b.next_match = false) : c.next_match = false := by
  have hsome := Scanny.next_match_false_isSome b h
  have hid := Scanny.frozen_id b (Or.inr h)
  cases st with
  | bump => rw [(Scanny.bump_session b hsome).2.2.2.2.2]; exact h
  | matcher_open => rw [Scanny.matcher_open_of_isSome b hsome]; exact h
  | matched => rw [(Scanny.matched_fields b).2.2.2.2.2.2]; exact h
  | skeep_while f => rw [hid.1 f]; exact h
  | match_char f => rw [hid.2.1 f]; exact h
  | match_char_optional f => rw [hid.2.2.1 f]; exact h
  | then_lit ch => rw [hid.2.2.2.1 ch]; exact h
  | then_optional ch => rw [hid.2.2.2.2.1 ch]; exact h
  | then_any f => rw [hid.2.2.2.2.2.1 f]; exact h
  | then_any_optional cs => rw [hid.2.2.2.2.2.2.1 cs]; exact h
  | then_peek f hf => rw [hid.2.2.2.2.2.2.2.1 f]; exact h
  | peek_and_consume fuel f hf => rw [hid.2.2.2.2.2.2.2.2.1 fuel f]; exact h
  | consume_while f => rw [hid.2.2.2.2.2.2.2.2.2 f]; exact h

/-- One public operation of any kind, `finalize` included: the transitions a
caller can perform on a scanner from creation onward.  Session-aware
predicates carry preservation of the boundary invariant, which any predicate
composed from these same operations enjoys (see `Step.inv_pres`). -/
inductive Step : Scanny → Scanny → Prop where
  | bump (sc : Scanny) : Step sc (sc.bump).2
  | matcher_open (sc : Scanny) : Step sc sc.matcher_open
  | matched (sc : Scanny) : Step sc sc.matched
  | skeep_while (sc : Scanny) (f : Char → Bool) : Step sc (sc.skeep_while f)
  | match_char (sc : Scanny) (f : Char → Bool) : Step sc (sc.match_char f)
  | match_char_optional (sc : Scanny) (f : Char → Bool) : Step sc (sc.match_char_optional f)
  | then_lit (sc : Scanny) (ch : Char) : Step sc (sc.«then» ch)
  | then_optional (sc : Scanny) (ch : Char) : Step sc (sc.then_optional ch)
  | then_any (sc : Scanny) (f : Option Char → Bool) : Step sc (sc.then_any f)
  | then_any_optional (sc : Scanny) (cs : List Char) : Step sc (sc.then_any_optional cs)
  | then_peek (sc : Scanny) (f : Scanny → Bool × Scanny)
      (hf : ∀ s : Scanny, s.Inv → ((f s).2).Inv) : Step sc (sc.then_peek f)
  | peek_and_consume (sc : Scanny) (fuel : Nat) (f : Scanny → Bool × Scanny)
      (hf : ∀ s : Scanny, s.Inv → ((f s).2).Inv) : Step sc (sc.peek_and_consume fuel f)
  | consume_while (sc : Scanny) (f : Char → Bool) : Step sc (sc.consume_while f)
  | finalize {T : Type} (sc : Scanny) (cls : MatchType → ConsumeFlags → T × ConsumeFlags) :
      Step sc (sc.finalize cls).2

/-- Every public operation preserves the boundary invariant. -/
theorem Step.inv_pres {b c : Scanny} (st : Step b c) (h : b.Inv) : c.Inv :=
  match st, h with
  | .bump sc, h => Scanny.Inv_bump sc h
  | .matcher_open sc, h => Scanny.Inv_matcher_open sc h
  | .matched sc, h => Scanny.Inv_matched sc h
  | .skeep_while sc f, h => Scanny.skeep_while_pres Scanny.Inv Scanny.Inv_bump sc f h
  | .match_char sc f, h =>
    Scanny.match_char_pres Scanny.Inv Scanny.Inv_bump
      (fun s v hv => Scanny.Inv_set_next_match s v hv) sc f h
  | .match_char_optional sc f, h =>
    Scanny.match_char_optional_pres Scanny.Inv Scanny.Inv_bump sc f h
  | .then_lit sc ch, h =>
    Scanny.then_pres Scanny.Inv Scanny.Inv_bump
      (fun s v hv => Scanny.Inv_set_next_match s v hv) sc ch h
  | .then_optional sc ch, h =>
    Scanny.then_optional_pres Scanny.Inv Scanny.Inv_bump sc ch h
  | .then_any sc f, h =>
    Scanny.then_any_pres Scanny.Inv Scanny.Inv_bump
      (fun s v hv => Scanny.Inv_set_next_match s v hv) sc f h
  | .then_any_optional sc cs, h =>
    Scanny.then_any_optional_pres Scanny.Inv Scanny.Inv_bump sc cs h
  | .then_peek sc f hf, h =>
    Scanny.then_peek_pres Scanny.Inv (fun s v hv => Scanny.Inv_set_next_match s v hv) f hf sc h
  | .peek_and_consume sc fuel f hf, h =>
    Scanny.peek_and_consume_pres Scanny.Inv Scanny.Inv_bump f hf sc fuel h
  | .consume_while sc f, h => Scanny.consume_while_pres Scanny.Inv Scanny.Inv_bump sc f h
  | .finalize sc cls, h => Scanny.Inv_finalize sc cls h

/-- Full characterisation of `finalize` on an open session.  Because the
source takes the matcher out of the scanner before calling
`self.is_matched()`, the success condition `self.is_matched() || match_next`
degenerates to the session's `match_next` flag alone. -/
theorem Scanny.finalize_some {T : Type} (sc : Scanny) (m : Matcher)
    (cls : MatchType → ConsumeFlags → T × ConsumeFlags) (hm : sc.matcher = some m) :
    sc.finalize cls =
      (some (((WithPos.new (cls (if m.match_next then
            MatchType.All ((strGet sc.whole sc.byte_pos m.byte_pos).getD [])
          else MatchType.Few ((strGet sc.whole sc.byte_pos m.byte_pos).getD []))
          { consume_on_match := true, consume_on_not_match := true }).1).set_byte_pos
          (sc.byte_pos, m.byte_pos)).set_line_pos (sc.line, m.line)),
        if m.match_next then
          (if ((cls (MatchType.All ((strGet sc.whole sc.byte_pos m.byte_pos).getD []))
                { consume_on_match := true, consume_on_not_match := true }).2).consume_on_match then
            { sc with chars := m.chars, byte_pos := m.byte_pos, line := m.line, matcher := none }
          else { sc with matcher := none })
        else
          (if ((cls (MatchType.Few ((strGet sc.whole sc.byte_pos m.byte_pos).getD []))
                { consume_on_match := true, consume_on_not_match := true }).2).consume_on_not_match then
            { sc with chars := m.chars, byte_pos := m.byte_pos, line := m.line, matcher := none }
          else { sc with matcher := none })) := by
  by_cases hn : m.match_next <;>
    simp [Scanny.finalize, hm, Scanny.is_matched, hn]

/-! ### Claims -/

/-- Claim C1, demonstration against the code: the claim (and the spec) says
`finalize` classifies success as `is_matched OR match_next`, so a session in
which `matched()` was called yields the `All` branch even when a required
step had already set `match_next` to `false`.  In the source, `finalize`
executes `self.matcher.borrow_mut().take()?` before evaluating
`self.is_matched()`, so that call always sees an empty matcher slot and
returns `false`: success degenerates to `match_next` alone.  Concretely, on
buffer "ab" the required step `then('x')` fails (setting `match_next` to
`false`), then `matched()` sets the session's `is_matched` flag — and
`finalize` still produces the `Few` branch. -/
theorem c1_matched_lost_at_finalize :
    ((((Scanny.new ['a', 'b']).matcher_open).«then» 'x').matched.is_matched = true) ∧
    ((((Scanny.new ['a', 'b']).matcher_open).«then» 'x').matched.next_match = false) ∧
    (((((Scanny.new ['a', 'b']).matcher_open).«then» 'x').matched.finalize
        (fun mt st => (mt, st))).1.map (fun w => w.value.is_matched) = some false) := by
  decide

/-- Claim C2: on an open session, `finalize` copies the session's snapshot
position (read position, byte offset, line) into the cursor exactly when the
consume-override flag of the branch that occurred is still `true` when the
classifier returns, and otherwise leaves the cursor fields exactly as they
were; flipping the flag of the branch that did not occur is a no-op (the
`MatchType` setters only write the cell of their own variant); and a
classifier that flips nothing always commits, for success and failure
alike. -/
theorem c2_commit_protocol {T : Type} (sc : Scanny) (m : Matcher)
    (cls : MatchType → ConsumeFlags → T × ConsumeFlags) (hm : sc.matcher = some m) :
    (∀ (v : List Char) (b : Bool) (st : ConsumeFlags),
        (MatchType.Few v).consume_on_match b st = st) ∧
    (∀ (v : List Char) (b : Bool) (st : ConsumeFlags),
        (MatchType.All v).consume_on_not_match b st = st) ∧
    (sc.finalize cls).2.matcher = none ∧
    (∀ fl : ConsumeFlags,
      fl = (cls (if m.match_next then
              MatchType.All ((strGet sc.whole sc.byte_pos m.byte_pos).getD [])
            else MatchType.Few ((strGet sc.whole sc.byte_pos m.byte_pos).getD []))
            { consume_on_match := true, consume_on_not_match := true }).2 →
      ((m.match_next = true → fl.consume_on_match = true →
          (sc.finalize cls).2.chars = m.chars ∧ (sc.finalize cls).2.byte_pos = m.byte_pos ∧
          (sc.finalize cls).2.line = m.line) ∧
       (m.match_next = true → fl.consume_on_match = false →
          (sc.finalize cls).2.chars = sc.chars ∧ (sc.finalize cls).2.byte_pos = sc.byte_pos ∧
          (sc.finalize cls).2.line = sc.line) ∧
       (m.match_next = false → fl.consume_on_not_match = true →
          (sc.finalize cls).2.chars = m.chars ∧ (sc.finalize cls).2.byte_pos = m.byte_pos ∧
          (sc.finalize cls).2.line = m.line) ∧
       (m.match_next = false → fl.consume_on_not_match = false →
          (sc.finalize cls).2.chars = sc.chars ∧ (sc.finalize cls).2.byte_pos = sc.byte_pos ∧
          (sc.finalize cls).2.line = sc.line))) ∧
    ((∀ mt st, (cls mt st).2 = st) →
      (sc.finalize cls).2.chars = m.chars ∧ (sc.finalize cls).2.byte_pos = m.byte_pos ∧
      (sc.finalize cls).2.line = m.line) := by
  have hfin2 := congrArg Prod.snd (Scanny.finalize_some sc m cls hm)
  refine ⟨fun v b st => rfl, fun v b st => rfl, ?_, ?_, ?_⟩
  · rw [hfin2]
    by_cases hn : m.match_next <;> simp [hn] <;> split <;> simp
  · intro fl hfl
    refine ⟨?_, ?_, ?_, ?_⟩
    · intro hn hcm
      rw [hfl] at hcm
      rw [hfin2]
      simp [hn] at hcm ⊢
      simp [hcm]
    · intro hn hcm
      rw [hfl] at hcm
      rw [hfin2]
      simp [hn] at hcm ⊢
      simp [hcm]
    · intro hn hcm
      rw [hfl] at hcm
      rw [hfin2]
      simp [hn] at hcm ⊢
      simp [hcm]
    · intro hn hcm
      rw [hfl] at hcm
      rw [hfin2]
      simp [hn] at hcm ⊢
      simp [hcm]
  · intro hcls
    rw [hfin2]
    by_cases hn : m.match_next <;> simp [hn, hcls]

/-- Claim C2 witness: a concrete session over "ab" that consumed one
character, finalized with the identity classifier (no flips): the session is
removed and the cursor takes the session's position. -/
theorem c2_commit_protocol_witness :
    ((((Scanny.new ['a', 'b']).matcher_open.bump).2.finalize
        (fun mt st => (mt, st))).2.matcher = none) ∧
    ((((Scanny.new ['a', 'b']).matcher_open.bump).2.finalize
        (fun mt st => (mt, st))).2.byte_pos = 1) := by
  have h := c2_commit_protocol (((Scanny.new ['a', 'b']).matcher_open.bump).2)
    { chars := ['b'], byte_pos := 1, line := 1, is_matched := false, match_next := true }
    (fun mt st => (mt, st)) (by decide)
  exact ⟨h.2.2.1, (h.2.2.2.2 (fun mt st => rfl)).2.1⟩

/-- Claim C3: while a session is open, any sequence of lookahead, advance and
combinator operations (everything except `finalize`; the `peek` family is
pure by construction, `Scanny → Option Char`) leaves the cursor's read
position, byte offset and line number unchanged and keeps the session open —
in particular, a session that is opened and never finalized leaves the
cursor exactly where it was at open time. -/
theorem c3_session_isolates_cursor (sc sc' : Scanny) (h : sc.matcher.isSome = true)
    (hs : Relation.ReflTransGen SessionStep sc sc') :
    sc'.chars = sc.chars ∧ sc'.byte_pos = sc.byte_pos ∧ sc'.line = sc.line ∧
    sc'.matcher.isSome = true := by
  induction hs with
  | refl => exact ⟨rfl, rfl, rfl, h⟩
  | tail hab hbc ih =>
    obtain ⟨i1, i2, i3, i4⟩ := ih
    obtain ⟨p1, p2, p3, p4⟩ := SessionStep.cursor_pres hbc i4
    exact ⟨p1.trans i1, p2.trans i2, p3.trans i3, p4⟩

/-- Claim C3 witness: open a session on "ab" and bump once inside it — the
cursor fields are untouched. -/
theorem c3_session_isolates_cursor_witness :
    (((Scanny.new ['a', 'b']).matcher_open.bump).2.chars =
        (Scanny.new ['a', 'b']).matcher_open.chars) ∧
    (((Scanny.new ['a', 'b']).matcher_open.bump).2.byte_pos =
        (Scanny.new ['a', 'b']).matcher_open.byte_pos) ∧
    (((Scanny.new ['a', 'b']).matcher_open.bump).2.line =
        (Scanny.new ['a', 'b']).matcher_open.line) ∧
    (((Scanny.new ['a', 'b']).matcher_open.bump).2.matcher.isSome = true) :=
  c3_session_isolates_cursor ((Scanny.new ['a', 'b']).matcher_open)
    (((Scanny.new ['a', 'b']).matcher_open.bump).2) (by decide)
    (Relation.ReflTransGen.single (SessionStep.bump ((Scanny.new ['a', 'b']).matcher_open)))

/-- Claim C4: once the session is frozen (`is_matched = true` or
`match_next = false`), every combinator is the identity — no advance, and
the result does not depend on the predicate at all; and once `match_next` is
`false`, no sequence of non-finalize operations ever resets it to `true`. -/
theorem c4_freeze_and_monotonic_failure (sc : Scanny)
    (h : sc.is_matched = true ∨ sc.next_match = false) :
    ((∀ f, sc.skeep_while f = sc) ∧ (∀ f, sc.match_char f = sc) ∧
     (∀ f, sc.match_char_optional f = sc) ∧ (∀ ch, sc.«then» ch = sc) ∧
     (∀ ch, sc.then_optional ch = sc) ∧ (∀ f, sc.then_any f = sc) ∧
     (∀ cs, sc.then_any_optional cs = sc) ∧ (∀ f, sc.then_peek f = sc) ∧
     (∀ fuel f, sc.peek_and_consume fuel f = sc) ∧ (∀ f, sc.consume_while f = sc)) ∧
    (∀ sc'' : Scanny, sc.next_match = false →
      Relation.ReflTransGen SessionStep sc sc'' → sc''.next_match = false) := by
  refine ⟨Scanny.frozen_id sc h, ?_⟩
  intro sc'' hnm hchain
  induction hchain with
  | refl => exact hnm
  | tail hab hbc ih => exact SessionStep.next_match_mono hbc ih

/-- Claim C4 witness: after a failed required step on "ab" the session is
frozen — `match_char` with an always-true predicate is a no-op, and a
further `consume_while` step leaves `match_next` at `false`. -/
theorem c4_freeze_and_monotonic_failure_witness :
    ((((Scanny.new ['a', 'b']).matcher_open).«then» 'x').match_char (fun v => true) =
      (((Scanny.new ['a', 'b']).matcher_open).«then» 'x')) ∧
    (((((Scanny.new ['a', 'b']).matcher_open).«then» 'x').consume_while
        (fun v => true)).next_match = false) := by
  have h := c4_freeze_and_monotonic_failure (((Scanny.new ['a', 'b']).matcher_open).«then» 'x')
    (Or.inr (by decide))
  exact ⟨h.1.2.1 (fun v => true),
    h.2 ((((Scanny.new ['a', 'b']).matcher_open).«then» 'x').consume_while (fun v => true))
      (by decide)
      (Relation.ReflTransGen.single
        (SessionStep.consume_while (((Scanny.new ['a', 'b']).matcher_open).«then» 'x')
          (fun v => true)))⟩

/-- Claim C5: for a finalized session, the substring carried by the result
(whichever branch occurred) is exactly the buffer segment from the cursor's
byte offset at session-open time to the session's byte offset at finalize
time, and the result carries the byte range `[start_byte, session_byte)` and
the inclusive line range `[start_line, session_line]`.  The hypotheses state
that the two byte offsets are the encodings of character counts `k1 ≤ k2`,
which every reachable state satisfies (see the boundary invariant). -/
theorem c5_substring_and_ranges (sc : Scanny) (m : Matcher) (k1 k2 : Nat)
    (hm : sc.matcher = some m) (hk : k1 ≤ k2)
    (hb1 : sc.byte_pos = utf8Len (sc.whole.take k1))
    (hb2 : m.byte_pos = utf8Len (sc.whole.take k2)) :
    ∃ w : WithPos MatchType,
      (sc.finalize (fun mt st => (mt, st))).1 = some w ∧
      w.value.value = (sc.whole.take k2).drop k1 ∧
      w.byte_pos = (sc.byte_pos, m.byte_pos) ∧ w.line_pos = (sc.line, m.line) := by
  have hseg : strGet sc.whole sc.byte_pos m.byte_pos = some ((sc.whole.take k2).drop k1) := by
    rw [hb1, hb2]
    exact strGet_take_drop sc.whole k1 k2 hk
  have hfin := Scanny.finalize_some sc m (fun mt st => (mt, st)) hm
  refine ⟨((WithPos.new (if m.match_next then
        MatchType.All ((strGet sc.whole sc.byte_pos m.byte_pos).getD [])
      else MatchType.Few ((strGet sc.whole sc.byte_pos m.byte_pos).getD []))).set_byte_pos
      (sc.byte_pos, m.byte_pos)).set_line_pos (sc.line, m.line), ?_, ?_, ?_, ?_⟩
  · rw [hfin]
  · by_cases hn : m.match_next <;>
      simp [hn, WithPos.new, WithPos.set_byte_pos, WithPos.set_line_pos, MatchType.value, hseg]
  · simp [WithPos.new, WithPos.set_byte_pos, WithPos.set_line_pos]
  · simp [WithPos.new, WithPos.set_byte_pos, WithPos.set_line_pos]

/-- Claim C5 witness: a session over "ab" that consumed one character
(counts `k1 = 0`, `k2 = 1`) — the result carries substring "a", byte range
`(0, 1)`, line range `(1, 1)`. -/
theorem c5_substring_and_ranges_witness :
    ∃ w : WithPos MatchType,
      ((((Scanny.new ['a', 'b']).matcher_open.bump).2).finalize
          (fun mt st => (mt, st))).1 = some w ∧
      w.value.value =
        (((((Scanny.new ['a', 'b']).matcher_open.bump).2).whole.take 1).drop 0) ∧
      w.byte_pos = ((((Scanny.new ['a', 'b']).matcher_open.bump).2).byte_pos,
        (Matcher.mk ['b'] 1 1 false true).byte_pos) ∧
      w.line_pos = ((((Scanny.new ['a', 'b']).matcher_open.bump).2).line,
        (Matcher.mk ['b'] 1 1 false true).line) :=
  c5_substring_and_ranges (((Scanny.new ['a', 'b']).matcher_open.bump).2)
    (Matcher.mk ['b'] 1 1 false true) 0 1 (by decide) (by decide) (by decide) (by decide)

/-- Claim C6: in every state reachable by public operations from a fresh
scanner, the cursor's and any open session's byte offsets are the UTF-8
lengths of character prefixes of the buffer (valid code-point boundaries,
each advance having moved by exactly the consumed character's encoded
width), and consequently the substring extraction performed by `finalize`
over the range `[cursor byte offset, session byte offset)` always succeeds:
the model of `whole.get(range).unwrap()` never takes its panic branch. -/
theorem c6_boundaries_and_total_slice (s : List Char) (sc : Scanny)
    (h : Relation.ReflTransGen Step (Scanny.new s) sc) :
    sc.Inv ∧ ∀ m : Matcher, sc.matcher = some m →
      (strGet sc.whole sc.byte_pos m.byte_pos).isSome = true := by
  have hinv : sc.Inv := by
    induction h with
    | refl => exact Scanny.Inv_new s
    | tail hab hbc ih => exact Step.inv_pres hbc ih
  refine ⟨hinv, ?_⟩
  intro m hm
  obtain ⟨k1, hk1, hc, hb, hmm⟩ := hinv
  obtain ⟨k2, hk12, hk2, hmc, hmb⟩ := hmm m hm
  rw [hb, hmb, strGet_take_drop sc.whole k1 k2 hk12]
  rfl

/-- Claim C6 witness: reach a state by open-then-bump on "ab" and check the
slice over the computed range succeeds. -/
theorem c6_boundaries_and_total_slice_witness :
    (strGet ((((Scanny.new ['a', 'b']).matcher_open).bump).2).whole
      ((((Scanny.new ['a', 'b']).matcher_open).bump).2).byte_pos
      (Matcher.mk ['b'] 1 1 false true).byte_pos).isSome = true :=
  (c6_boundaries_and_total_slice ['a', 'b'] ((((Scanny.new ['a', 'b']).matcher_open).bump).2)
      ((Relation.ReflTransGen.refl.tail (Step.matcher_open (Scanny.new ['a', 'b']))).tail
        (Step.bump ((Scanny.new ['a', 'b']).matcher_open)))).2
    (Matcher.mk ['b'] 1 1 false true) (by decide)

/-- Claim C7: `then_peek` and `peek_and_consume` hand the live session to
their predicate — in the embedding, the state the predicate returns is the
state the chain continues with, so every advance the predicate performs
persists: the `then_peek` result agrees with the predicate's output state on
buffer, cursor fields and session position (only `match_next` may
additionally change, on a `false` verdict), and one `peek_and_consume`
iteration continues from the predicate's output state (returning it when the
verdict is `false`, bumping it and looping when `true`). -/
theorem c7_predicate_state_persists (sc : Scanny) (f : Scanny → Bool × Scanny) (fuel : Nat)
    (h1 : sc.is_matched = false) (h2 : sc.next_match = true) :
    ((sc.then_peek f).whole = (f sc).2.whole ∧ (sc.then_peek f).chars = (f sc).2.chars ∧
     (sc.then_peek f).byte_pos = (f sc).2.byte_pos ∧ (sc.then_peek f).line = (f sc).2.line ∧
     (sc.then_peek f).matcherView = (f sc).2.matcherView) ∧
    ((f sc).1 = false → sc.peek_and_consume (fuel + 1) f = (f sc).2) ∧
    ((f sc).1 = true →
      sc.peek_and_consume (fuel + 1) f =
        Scanny.peekAndConsumeLoop f fuel (((f sc).2).bump).2) := by
  refine ⟨?_, ?_, ?_⟩
  · have hpk : sc.then_peek f =
        if (f sc).1 then (f sc).2 else ((f sc).2).set_next_match false := by
      simp [Scanny.then_peek, h1, h2]
    by_cases hb : (f sc).1
    · simp [hpk, hb]
    · obtain ⟨t1, t2, t3, t4, -, t6⟩ := Scanny.set_next_match_fields ((f sc).2) false
      simp only [hpk, hb]
      simp [t1, t2, t3, t4, t6]
  · intro hb
    simp [Scanny.peek_and_consume, h1, h2, Scanny.peekAndConsumeLoop, hb]
  · intro hb
    simp [Scanny.peek_and_consume, h1, h2, Scanny.peekAndConsumeLoop, hb]

/-- Claim C7 witness: a predicate that bumps once and answers `false` — its
advance persists in the session view, and `peek_and_consume` returns exactly
the predicate's output state. -/
theorem c7_predicate_state_persists_witness :
    ((((Scanny.new ['a', 'b']).matcher_open).then_peek
        (fun s => (false, (s.bump).2))).matcherView =
      ((((Scanny.new ['a', 'b']).matcher_open).bump).2).matcherView) ∧
    (((Scanny.new ['a', 'b']).matcher_open).peek_and_consume 1
        (fun s => (false, (s.bump).2)) =
      (((Scanny.new ['a', 'b']).matcher_open).bump).2) := by
  have h := c7_predicate_state_persists ((Scanny.new ['a', 'b']).matcher_open)
    (fun s => (false, (s.bump).2)) 0 (by decide) (by decide)
  exact ⟨h.1.2.2.2.2, h.2.1 rfl⟩

/-- Claim C8: consuming a newline advances the active byte offset (cursor's
or open session's) by exactly 1 and the active line counter by exactly 1;
consuming any other character advances the byte offset by that character's
encoded UTF-8 width and leaves the line counter unchanged. -/
theorem c8_newline_accounting :
    (∀ (sc : Scanny) (rest : List Char), sc.activeChars = '\n' :: rest →
      ((sc.bump).2.activeBytePos = sc.activeBytePos + 1 ∧
       (sc.bump).2.activeLine = sc.activeLine + 1)) ∧
    (∀ (sc : Scanny) (ch : Char) (rest : List Char), sc.activeChars = ch :: rest →
      ch ≠ '\n' →
      ((sc.bump).2.activeBytePos = sc.activeBytePos + ch.utf8Size ∧
       (sc.bump).2.activeLine = sc.activeLine)) := by
  constructor
  · intro sc rest hac
    cases hmo : sc.matcher with
    | none =>
      have hcs : sc.chars = '\n' :: rest := by
        rw [← hac]
        simp [Scanny.activeChars, hmo]
      simp [Scanny.bump, Scanny.activeBytePos, Scanny.activeLine, hmo, hcs]
    | some m =>
      have hcs : m.chars = '\n' :: rest := by
        rw [← hac]
        simp [Scanny.activeChars, hmo]
      simp [Scanny.bump, Scanny.activeBytePos, Scanny.activeLine, hmo, hcs]
  · intro sc ch rest hac hch
    cases hmo : sc.matcher with
    | none =>
      have hcs : sc.chars = ch :: rest := by
        rw [← hac]
        simp [Scanny.activeChars, hmo]
      simp [Scanny.bump, Scanny.activeBytePos, Scanny.activeLine, hmo, hcs, hch]
    | some m =>
      have hcs : m.chars = ch :: rest := by
        rw [← hac]
        simp [Scanny.activeChars, hmo]
      simp [Scanny.bump, Scanny.activeBytePos, Scanny.activeLine, hmo, hcs, hch]

/-- Claim C8 witness: consuming `'\n'` adds 1 to byte offset and line;
consuming `'x'` adds its UTF-8 width (1) and keeps the line. -/
theorem c8_newline_accounting_witness :
    (((Scanny.new ['\n', 'a']).bump).2.activeBytePos =
        (Scanny.new ['\n', 'a']).activeBytePos + 1 ∧
      ((Scanny.new ['\n', 'a']).bump).2.activeLine =
        (Scanny.new ['\n', 'a']).activeLine + 1) ∧
    (((Scanny.new ['x']).bump).2.activeBytePos =
        (Scanny.new ['x']).activeBytePos + ('x').utf8Size ∧
      ((Scanny.new ['x']).bump).2.activeLine = (Scanny.new ['x']).activeLine) :=
  ⟨c8_newline_accounting.1 (Scanny.new ['\n', 'a']) ['a'] rfl,
   c8_newline_accounting.2 (Scanny.new ['x']) 'x' [] rfl (by decide)⟩

/-- Claim C9: `finalize` with no open session yields `none` and leaves the
scanner unchanged; every lookahead on an exhausted active stream yields
`none`; `peek_nth` past the end yields `none`; and `bump` at end of input
yields `none` and leaves the state unchanged — none of these is an error. -/
theorem c9_absence_not_error :
    (∀ (T : Type) (cls : MatchType → ConsumeFlags → T × ConsumeFlags) (sc : Scanny),
        sc.matcher = none → sc.finalize cls = (none, sc)) ∧
    (∀ sc : Scanny, sc.activeChars = [] →
        sc.peek = none ∧ sc.peek_second = none ∧ sc.peek_third = none ∧
        (∀ n, sc.peek_nth n = none) ∧ sc.bump = (none, sc)) ∧
    (∀ (sc : Scanny) (n : Nat), sc.activeChars.length ≤ n → sc.peek_nth n = none) := by
  refine ⟨?_, ?_, ?_⟩
  · intro T cls sc hm
    simp [Scanny.finalize, hm]
  · intro sc hac
    refine ⟨?_, ?_, ?_, ?_, ?_⟩
    · simp [Scanny.peek, hac]
    · simp [Scanny.peek_second, hac]
    · simp [Scanny.peek_third, hac]
    · intro n
      simp [Scanny.peek_nth, hac]
    · cases hmo : sc.matcher with
      | none =>
        have hcs : sc.chars = [] := by
          rw [← hac]
          simp [Scanny.activeChars, hmo]
        simp [Scanny.bump, hmo, hcs]
      | some m =>
        have hcs : m.chars = [] := by
          rw [← hac]
          simp [Scanny.activeChars, hmo]
        simp [Scanny.bump, hmo, hcs]
  · intro sc n hn
    rw [Scanny.peek_nth]
    exact List.getElem?_eq_none hn

/-- Claim C9 witness: finalize with no session on "a", peek on empty input,
and an out-of-range `peek_nth`. -/
theorem c9_absence_not_error_witness :
    ((Scanny.new ['a']).finalize (fun mt st => (mt, st)) = (none, Scanny.new ['a'])) ∧
    ((Scanny.new ([] : List Char)).peek = none) ∧
    ((Scanny.new ['a']).peek_nth 5 = none) :=
  ⟨c9_absence_not_error.1 MatchType (fun mt st => (mt, st)) (Scanny.new ['a']) rfl,
   (c9_absence_not_error.2.1 (Scanny.new ([] : List Char)) rfl).1,
   c9_absence_not_error.2.2 (Scanny.new ['a']) 5 (by decide)⟩

/-- Claim C10: with a live session at end of input, the required combinator
`match_char` returns without consuming and without failing (the session can
still finalize as success), whereas `then(ch)` sets `match_next` to `false`,
and `then_any(f)` with `f(None) = false` sets `match_next` to `false` — the
required families disagree on whether exhausted input counts as failure. -/
theorem c10_eof_asymmetry (sc : Scanny) (m : Matcher) (hm : sc.matcher = some m)
    (h1 : m.is_matched = false) (h2 : m.match_next = true) (he : m.chars = [])
    (f : Char → Bool) (g : Option Char → Bool) (hg : g none = false) (ch : Char) :
    sc.match_char f = sc ∧ (sc.«then» ch).next_match = false ∧
    (sc.then_any g).next_match = false := by
  have hism : sc.is_matched = false := by simp [Scanny.is_matched, hm, h1]
  have hnm : sc.next_match = true := by simp [Scanny.next_match, hm, h2]
  have hpk : sc.peek = none := by simp [Scanny.peek, Scanny.activeChars, hm, he]
  refine ⟨?_, ?_, ?_⟩
  · simp [Scanny.match_char, hism, hnm, hpk]
  · have hset : sc.«then» ch = sc.set_next_match false := by
      simp [Scanny.«then», hism, hnm, hpk]
    rw [hset]
    simp [Scanny.set_next_match, Scanny.next_match, hm]
  · have hset : sc.then_any g = sc.set_next_match false := by
      simp [Scanny.then_any, hism, hnm, hpk, hg]
    rw [hset]
    simp [Scanny.set_next_match, Scanny.next_match, hm]

/-- Claim C10 witness: a session that consumed the whole buffer "a" —
`match_char` is a no-op, `then('z')` and `then_any(isSome)` fail. -/
theorem c10_eof_asymmetry_witness :
    ((((Scanny.new ['a']).matcher_open).bump).2.match_char (fun v => true) =
      (((Scanny.new ['a']).matcher_open).bump).2) ∧
    (((((Scanny.new ['a']).matcher_open).bump).2.«then» 'z').next_match = false) ∧
    (((((Scanny.new ['a']).matcher_open).bump).2.then_any
        (fun o => o.isSome)).next_match = false) :=
  c10_eof_asymmetry ((((Scanny.new ['a']).matcher_open).bump).2)
    (Matcher.mk [] 1 1 false true) (by decide) rfl rfl rfl (fun v => true)
    (fun o => o.isSome) rfl 'z'
